import Mathlib

/-!
Shallow embedding of the Narwhal NFS read/write lock (narwhal.c / narwhal.h).

The state file holds one line per outstanding request.  `parse_client_states`
splits the file into 5-tuples, drops stale entries while parsing, and records a
pointer `granted_state` into the slot buffer.  `request_lock` decides whether a
request can be granted and mutates the caller's entry; `remove_lock` removes it.
The public operations wrap these in a load / mutate / persist cycle under the
link-based filesystem mutex, whose release is `exclusive_unlock`.

The embedding models the in-memory slot buffer explicitly, because the C code
records `granted_state` *before* deciding whether the entry it points at is
stale: a dropped entry leaves `granted_state` pointing at a slot that later
entries reuse.  Machine integers (`long long` times) are modelled as `Int`;
`errno` values as `Nat`; fallible paths return explicit result constructors.
-/

/-- One parsed line of the state file (struct `ClientState` in narwhal.c). -/
structure ClientState where
  host : String
  pid : String
  is_write_lock : Bool
  is_granted : Bool
  time : Int
  deriving DecidableEq

/-- In-memory parsing state: the reused slot buffer (`client_states`), the number
of completed kept entries (`next_client_state - client_states`), the index of the
slot `granted_state` points at (if any), and the `client_states_changed` flag. -/
structure ParseSim where
  slots : List ClientState
  nKept : Nat
  grantedIdx : Option Nat
  changed : Bool
  deriving DecidableEq

/-- Write an entry into slot `i` of the buffer; the C code writes the five fields
of each 5-tuple in place at `next_client_state`, which either overwrites the slot
left by a previously dropped entry or extends the used part of the buffer. -/
def writeSlot (slots : List ClientState) (i : Nat) (e : ClientState) : List ClientState :=
  if i < slots.length then slots.set i e else slots ++ [e]

/-- Process one 5-tuple of `parse_client_states`: write the fields into the slot
at `next_client_state`, record `granted_state` when the status field is `G`, and
then keep the entry (advance `next_client_state`) iff it is fresh, i.e. its time
is at least `first_fresh_time`; dropping an entry sets `client_states_changed`.
Note that `granted_state` is recorded before the staleness check. -/
def parseStep (first_fresh_time : Int) (sim : ParseSim) (e : ClientState) : ParseSim :=
  { slots := writeSlot sim.slots sim.nKept e,
    nKept := if first_fresh_time ≤ e.time then sim.nKept + 1 else sim.nKept,
    grantedIdx := if e.is_granted then some sim.nKept else sim.grantedIdx,
    changed := if first_fresh_time ≤ e.time then sim.changed else true }

/-- Initial simulation state: `client_states_changed := false`,
`granted_state := NULL`, no slots used yet. -/
def initSim : ParseSim :=
  { slots := [], nKept := 0, grantedIdx := none, changed := false }

/-- The `parse_client_states` function of narwhal.c applied to the already split
5-tuples of the state file, with `first_fresh_time = time(NULL) - timeout_sec`. -/
def parse_client_states (raws : List ClientState) (first_fresh_time : Int) : ParseSim :=
  raws.foldl (parseStep first_fresh_time) initSim

/-- The kept entries after parsing: `client_states[0 .. n_client_states)`. -/
def ParseSim.kept (sim : ParseSim) : List ClientState :=
  sim.slots.take sim.nKept

/-- The `ClientState` that `granted_state` points at after parsing (`NULL` when no
`G` status was seen).  Because the pointer is recorded before the staleness check,
the slot it names may have been reused by a later entry. -/
def ParseSim.grantedContent (sim : ParseSim) : Option ClientState :=
  sim.grantedIdx.bind fun i => sim.slots[i]?

/-- Result of one `request_lock` call: `-1` with `errno = ENOTSUP`, or the
`is_granted` value (`0` not granted yet / `1` granted). -/
inductive ReqResult where
  | notSup
  | done (granted : Bool)
  deriving DecidableEq

/-- Outcome of one engine call: its result, the entry list held by the state file
after the call, and whether the state file was rewritten by the call. -/
structure ReqOut where
  result : ReqResult
  persisted : List ClientState
  wrote : Bool
  deriving DecidableEq

/-- The `is_granted` decision at the top of `request_lock`:
`!granted_state || (!is_write_lock && !granted_state->is_write_lock)`. -/
def grantNow (is_write_lock : Bool) (granted_state : Option ClientState) : Bool :=
  match granted_state with
  | none => true
  | some g => !is_write_lock && !g.is_write_lock

/-- The scan loop shared by `request_lock` and `remove_lock`: find the first entry
whose pid and host both match the calling process, returning the entries before
it, the entry itself, and the entries after it. -/
def findClient (host pid : String) :
    List ClientState → Option (List ClientState × ClientState × List ClientState)
  | [] => none
  | c :: rest =>
    if c.pid == pid && c.host == host then some ([], c, rest)
    else (findClient host pid rest).map fun x => (c :: x.1, x.2.1, x.2.2)

/-- The `request_lock` function of narwhal.c, given the parsed state.  `raws` is
the entry list currently in the state file; when the call returns `ENOTSUP` or
does not dump, the file keeps exactly those entries. -/
def request_lock_core (kept : List ClientState) (granted_state : Option ClientState)
    (changed0 : Bool) (is_write_lock : Bool) (host pid : String) (now : Int)
    (raws : List ClientState) : ReqOut :=
  let is_granted := grantNow is_write_lock granted_state
  match findClient host pid kept with
  | some x =>
    let e := x.2.1
    if e.is_granted || (e.is_write_lock != is_write_lock) then
      { result := .notSup, persisted := raws, wrote := false }
    else
      let e1 := if is_granted then { e with is_granted := true } else e
      let changed1 := changed0 || is_granted
      let e2 := if e1.time != now then { e1 with time := now } else e1
      let changed2 := changed1 || (e1.time != now)
      if changed2 then
        { result := .done is_granted, persisted := x.1 ++ e2 :: x.2.2, wrote := true }
      else
        { result := .done is_granted, persisted := raws, wrote := false }
  | none =>
    { result := .done is_granted,
      persisted := kept ++ [{ host := host, pid := pid, is_write_lock := is_write_lock,
                              is_granted := is_granted, time := now }],
      wrote := true }

/-- One engine iteration of `narwhal_read_lock` / `narwhal_write_lock`: load and
parse the state file, run `request_lock`, and persist iff `client_states_changed`. -/
def narwhal_lock_step (raws : List ClientState) (is_write_lock : Bool)
    (host pid : String) (now timeout_sec : Int) : ReqOut :=
  let sim := parse_client_states raws (now - timeout_sec)
  request_lock_core sim.kept sim.grantedContent sim.changed is_write_lock host pid now raws

/-- Result of one `remove_lock` call: `-1` with `errno = ENOTSUP` when the caller
has no entry, a failure of the `assert(client_state->is_granted)` assertion, or
success. -/
inductive RemResult where
  | notSup
  | assertFailed
  | ok
  deriving DecidableEq

/-- Outcome of one `remove_lock` call, with the resulting state-file contents and
whether the file was rewritten. -/
structure RemOut where
  result : RemResult
  persisted : List ClientState
  wrote : Bool
  deriving DecidableEq

/-- The `remove_lock` function of narwhal.c: find the caller's entry among the
kept entries; no entry is `ENOTSUP`; a found entry must be granted (assert) and
is shifted out by `memmove`, after which the state file is always rewritten.
The `memmove` copies the entries after the match one slot down, but
`n_client_states` is never decremented, so `dump_client_states` still writes the
old count: the entries before the match, the entries after it, and then the
untouched final slot, which still holds the last kept entry — the entry after
the match when one exists, or the matched entry itself when it was last. -/
def remove_lock_core (kept : List ClientState) (host pid : String)
    (raws : List ClientState) : RemOut :=
  match findClient host pid kept with
  | none => { result := .notSup, persisted := raws, wrote := false }
  | some x =>
    if x.2.1.is_granted then
      { result := .ok, persisted := x.1 ++ x.2.2 ++ [x.2.2.getLastD x.2.1], wrote := true }
    else
      { result := .assertFailed, persisted := raws, wrote := false }

/-- One engine iteration of `narwhal_unlock`: load and parse the state file, then
run `remove_lock`. -/
def narwhal_unlock_step (raws : List ClientState) (host pid : String)
    (now timeout_sec : Int) : RemOut :=
  let sim := parse_client_states raws (now - timeout_sec)
  remove_lock_core sim.kept host pid raws

/-- Effect of one `unlink` call on `errno`: `none` is success, which leaves
`errno` unchanged; `some e` is failure, which sets `errno := e` (`e ≠ 0`). -/
def unlinkErrno (errno : Nat) (r : Option Nat) : Nat :=
  match r with
  | none => errno
  | some e => e

/-- The `exclusive_unlock` function of narwhal.c.  `base_errno` is the `errno`
value on entry; `lockfileUnlink` and `privateUnlink` are the outcomes of the two
`unlink` calls.  Returns the function's return value, the final `errno`, and the
unlink calls attempted, in order. -/
def exclusive_unlock (base_errno : Nat) (lockfileUnlink privateUnlink : Option Nat) :
    Int × Nat × List String :=
  let errno1 := unlinkErrno 0 lockfileUnlink
  let lockfile_result : Int := if lockfileUnlink.isSome then -1 else 0
  let errno2 := unlinkErrno errno1 privateUnlink
  let private_result : Int := if privateUnlink.isSome then -1 else 0
  let final_errno := if base_errno ≠ 0 then base_errno else errno2
  (min lockfile_result private_result, final_errno, ["unlink lockfile", "unlink private"])

/-- The space character, the field separator written by `dump_client_states`. -/
def spaceChar : Char := Char.ofNat 32

/-- The newline character terminating each state-file line. -/
def nlChar : Char := Char.ofNat 10

/-- Whether a character is one of the separators `parse_client_states` turns into
a NUL terminator. -/
def isSep (c : Char) : Bool := c == spaceChar || c == nlChar

/-- Decimal digits of a natural number, most significant first, as printed by
`fprintf` with `%lld` for a nonnegative value. -/
def natChars (n : Nat) : List Char :=
  if n = 0 then ['0'] else ((Nat.digits 10 n).map Nat.digitChar).reverse

/-- The characters `%lld` prints for a time value. -/
def serializeTime (t : Int) : List Char :=
  if t < 0 then '-' :: natChars t.natAbs else natChars t.natAbs

/-- One line written by `dump_client_states`: `"%s %s %c %c %lld\n"`. -/
def serializeState (c : ClientState) : List Char :=
  c.host.data ++ spaceChar :: c.pid.data ++ spaceChar ::
    (if c.is_write_lock then 'W' else 'R') :: spaceChar ::
    (if c.is_granted then 'G' else 'P') :: spaceChar ::
    (serializeTime c.time ++ [nlChar])

/-- The `dump_client_states` function of narwhal.c: the bytes written to the
state file for a given entry list. -/
def dump_client_states (l : List ClientState) : List Char :=
  (l.map serializeState).flatten

/-- Value of a decimal digit character, as `atoll` computes it. -/
def digitVal (c : Char) : Nat := c.toNat - 48

/-- Accumulate the decimal digits of a token, as `atoll` does. -/
def parseNatTok (t : List Char) : Nat :=
  t.foldl (fun a c => 10 * a + digitVal c) 0

/-- The `atoll` call reading the time field: an optional minus sign followed by
decimal digits (the empty token reads as zero). -/
def parseTime : List Char → Int
  | [] => 0
  | c :: rest =>
    if c = '-' then -Int.ofNat (parseNatTok rest) else Int.ofNat (parseNatTok (c :: rest))

/-- Character-by-character scan of the state text, accumulating the current
token.  A separator ends the current token; a separator met where the current
token is empty is the NUL-at-loop-top condition on which the C scan stops; the
end of the buffer (where `load_state_text` placed two NUL bytes) ends a final
nonempty token. -/
def tokenizeGo : List Char → List Char → List (List Char)
  | acc, [] => if acc.isEmpty then [] else [acc]
  | acc, c :: rest =>
    if isSep c then
      if acc.isEmpty then [] else acc :: tokenizeGo [] rest
    else
      tokenizeGo (acc ++ [c]) rest

/-- Split the state text into NUL-terminated tokens the way `parse_client_states`
does: spaces and newlines become terminators, each token is the characters up to
the next terminator, and scanning stops when the character at the top of the
token loop is itself a terminator. -/
def tokenize (text : List Char) : List (List Char) :=
  tokenizeGo [] text

/-- The `field_index % 5 == 2` switch of `parse_client_states`: the mode token
must be exactly the single character `R` or `W`; anything else hits an assert,
modelled as `none`. -/
def modeTok : List Char → Option Bool
  | ['R'] => some false
  | ['W'] => some true
  | _ => none

/-- The `field_index % 5 == 3` switch of `parse_client_states`: the status token
must be exactly the single character `P` or `G`; anything else hits an assert,
modelled as `none`. -/
def statusTok : List Char → Option Bool
  | ['P'] => some false
  | ['G'] => some true
  | _ => none

/-- Rebuild the 5-tuples from the token stream, as the `field_index % 5` switch of
`parse_client_states` does.  An incomplete trailing group writes fields into the
next slot without ever completing it, so it contributes no entry. -/
def parseFields : List (List Char) → Option (List ClientState)
  | [] => some []
  | h :: p :: m :: s :: t :: rest => do
    let wl ← modeTok m
    let g ← statusTok s
    let states ← parseFields rest
    pure (({ host := ⟨h⟩, pid := ⟨p⟩, is_write_lock := wl, is_granted := g,
             time := parseTime t } : ClientState) :: states)
  | _ :: _ => some []

/-- Text-level `parse_client_states`: tokenize the loaded state text, rebuild the
5-tuples, then run the keep/drop slot simulation. -/
def parseStateText (text : List Char) (first_fresh_time : Int) : Option ParseSim :=
  (parseFields (tokenize text)).map fun raws => parse_client_states raws first_fresh_time

/-- Parse a state text and serialize the kept entries back, the composition the
round-trip law talks about. -/
def roundTrip (text : List Char) (first_fresh_time : Int) : Option (List Char) :=
  (parseStateText text first_fresh_time).map fun sim => dump_client_states sim.kept

/-- Two entries name different `(host, pid)` owners. -/
def keyNe (a b : ClientState) : Prop := (a.host, a.pid) ≠ (b.host, b.pid)

/-- State-file invariant from the specification: entries have pairwise distinct
`(host, pid)` keys, a granted write entry is the only granted entry, and all
granted entries share one mode. -/
def StateInv (l : List ClientState) : Prop :=
  l.Pairwise keyNe ∧
  (∀ a ∈ l, a.is_granted = true → a.is_write_lock = true →
    ∀ b ∈ l, b.is_granted = true → b = a) ∧
  (∀ a ∈ l, ∀ b ∈ l, a.is_granted = true → b.is_granted = true →
    a.is_write_lock = b.is_write_lock)

/-- Well-formedness of the slot buffer maintained throughout parsing: the kept
prefix fits in the buffer, and at most one further slot (holding the most
recently dropped entry) is in use. -/
def SimWF (sim : ParseSim) : Prop :=
  sim.nKept ≤ sim.slots.length ∧ sim.slots.length ≤ sim.nKept + 1

/-- The recorded `granted_state` slot index, when present, is inside the buffer. -/
def GIdxOK (sim : ParseSim) : Prop :=
  ∀ i, sim.grantedIdx = some i → i < sim.slots.length

/-- The `granted_state` pointer names a slot in the kept prefix whose content is
`w`. -/
def GrantedAt (sim : ParseSim) (w : ClientState) : Prop :=
  ∃ i, sim.grantedIdx = some i ∧ i < sim.nKept ∧ sim.slots[i]? = some w

/-- A host or pid string that the state-file grammar can represent: nonempty and
free of the separator characters. -/
def tokenOK (s : String) : Prop :=
  s.data ≠ [] ∧ ∀ c ∈ s.data, isSep c = false

/-! Basic facts about the slot buffer and the parsing fold. -/

theorem simWF_initSim : SimWF initSim := by
  constructor <;> simp [initSim]

theorem kept_length {sim : ParseSim} (h : SimWF sim) : sim.kept.length = sim.nKept := by
  simp [ParseSim.kept, Nat.min_eq_left h.1]

theorem writeSlot_eq {l : List ClientState} {i : Nat} (e : ClientState)
    (h1 : i ≤ l.length) (h2 : l.length ≤ i + 1) :
    writeSlot l i e = l.take i ++ [e] := by
  unfold writeSlot
  by_cases h : i < l.length
  · rw [if_pos h, List.set_eq_take_cons_drop _ h, List.drop_eq_nil_of_le (by omega)]
  · have hi : i = l.length := by omega
    rw [if_neg h, hi, List.take_of_length_le (le_refl _)]

theorem parseStep_slots (ff : Int) {sim : ParseSim} (e : ClientState) (h : SimWF sim) :
    (parseStep ff sim e).slots = sim.kept ++ [e] := by
  simp [parseStep, writeSlot_eq e h.1 h.2, ParseSim.kept]

theorem parseStep_wf (ff : Int) {sim : ParseSim} (e : ClientState) (h : SimWF sim) :
    SimWF (parseStep ff sim e) := by
  have hs := parseStep_slots ff e h
  constructor
  · rw [hs]
    simp only [List.length_append, List.length_cons, List.length_nil]
    have := kept_length h
    simp only [parseStep]
    split <;> omega
  · rw [hs]
    simp only [List.length_append, List.length_cons, List.length_nil]
    have := kept_length h
    simp only [parseStep]
    split <;> omega

theorem parseStep_kept (ff : Int) {sim : ParseSim} (e : ClientState) (h : SimWF sim) :
    (parseStep ff sim e).kept =
      if ff ≤ e.time then sim.kept ++ [e] else sim.kept := by
  have hs := parseStep_slots ff e h
  have hl := kept_length h
  unfold ParseSim.kept at hs hl ⊢
  simp only [parseStep] at hs ⊢
  rw [hs]
  by_cases hf : ff ≤ e.time
  · rw [if_pos hf, if_pos hf, List.take_of_length_le]
    simp only [List.length_append, List.length_cons, List.length_nil]
    omega
  · rw [if_neg hf, if_neg hf, List.take_append_of_le_length (by omega),
      List.take_of_length_le (by omega)]

theorem parse_fold_wf (ff : Int) (raws : List ClientState) (sim : ParseSim) (h : SimWF sim) :
    SimWF (raws.foldl (parseStep ff) sim) := by
  induction raws generalizing sim with
  | nil => exact h
  | cons e rest ih =>
    rw [List.foldl_cons]
    exact ih _ (parseStep_wf ff e h)

theorem parse_fold_kept (ff : Int) (raws : List ClientState) (sim : ParseSim) (h : SimWF sim) :
    (raws.foldl (parseStep ff) sim).kept =
      sim.kept ++ raws.filter (fun e => decide (ff ≤ e.time)) := by
  induction raws generalizing sim with
  | nil => simp
  | cons e rest ih =>
    rw [List.foldl_cons, ih _ (parseStep_wf ff e h), parseStep_kept ff e h]
    by_cases hf : ff ≤ e.time
    · simp [hf, List.filter_cons]
    · simp [hf, List.filter_cons]

theorem parse_fold_changed (ff : Int) (raws : List ClientState) (sim : ParseSim) :
    (raws.foldl (parseStep ff) sim).changed =
      (sim.changed || raws.any (fun e => decide (e.time < ff))) := by
  induction raws generalizing sim with
  | nil => simp
  | cons e rest ih =>
    rw [List.foldl_cons, ih]
    have hstep : (parseStep ff sim e).changed = (sim.changed || decide (e.time < ff)) := by
      simp only [parseStep]
      by_cases hf : ff ≤ e.time
      · have hnot : ¬e.time < ff := by omega
        simp [hf, hnot]
      · have hlt : e.time < ff := by omega
        simp [hf, hlt]
    rw [hstep, List.any_cons, Bool.or_assoc]

theorem parse_fold_gidx_of_no_granted (ff : Int) (raws : List ClientState) (sim : ParseSim)
    (h : ∀ e ∈ raws, e.is_granted = false) :
    (raws.foldl (parseStep ff) sim).grantedIdx = sim.grantedIdx := by
  induction raws generalizing sim with
  | nil => rfl
  | cons e rest ih =>
    rw [List.foldl_cons, ih _ (fun x hx => h x (List.mem_cons_of_mem _ hx))]
    simp [parseStep, h e (List.mem_cons_self _ _)]

theorem parse_fold_gidx_isSome (ff : Int) (raws : List ClientState) (sim : ParseSim)
    (h : sim.grantedIdx.isSome) :
    (raws.foldl (parseStep ff) sim).grantedIdx.isSome := by
  induction raws generalizing sim with
  | nil => exact h
  | cons e rest ih =>
    rw [List.foldl_cons]
    refine ih _ ?_
    simp only [parseStep]
    by_cases hg : e.is_granted <;> simp [hg, h]

theorem parse_fold_gidx_mem (ff : Int) (raws : List ClientState) (sim : ParseSim)
    (e : ClientState) (he : e ∈ raws) (hg : e.is_granted = true) :
    (raws.foldl (parseStep ff) sim).grantedIdx.isSome := by
  induction raws generalizing sim with
  | nil => cases he
  | cons c rest ih =>
    rw [List.foldl_cons]
    rcases List.mem_cons.mp he with rfl | hmem
    · exact parse_fold_gidx_isSome ff rest _ (by simp [parseStep, hg])
    · exact ih _ hmem

theorem parse_fold_gidxOK (ff : Int) (raws : List ClientState) (sim : ParseSim)
    (hwf : SimWF sim) (h : GIdxOK sim) :
    GIdxOK (raws.foldl (parseStep ff) sim) := by
  induction raws generalizing sim with
  | nil => exact h
  | cons e rest ih =>
    rw [List.foldl_cons]
    refine ih _ (parseStep_wf ff e hwf) ?_
    intro i hi
    have hs := parseStep_slots ff e hwf
    have hl := kept_length hwf
    rw [hs, List.length_append, List.length_cons, List.length_nil, hl]
    simp only [parseStep] at hi
    by_cases hg : e.is_granted
    · rw [if_pos hg] at hi
      cases hi
      omega
    · rw [if_neg hg] at hi
      have h1 := h i hi
      have h2 := hwf.2
      omega

theorem parse_fold_grantedAt (ff : Int) (raws : List ClientState) (sim : ParseSim)
    (w : ClientState) (hwf : SimWF sim) (h : GrantedAt sim w)
    (hng : ∀ e ∈ raws, e.is_granted = false) :
    GrantedAt (raws.foldl (parseStep ff) sim) w := by
  induction raws generalizing sim with
  | nil => exact h
  | cons e rest ih =>
    rw [List.foldl_cons]
    refine ih _ (parseStep_wf ff e hwf) ?_ (fun x hx => hng x (List.mem_cons_of_mem _ hx))
    obtain ⟨i, hidx, hilt, hget⟩ := h
    refine ⟨i, ?_, ?_, ?_⟩
    · simp [parseStep, hng e (List.mem_cons_self _ _), hidx]
    · simp only [parseStep]
      split <;> omega
    · rw [parseStep_slots ff e hwf, List.getElem?_append, if_pos (by rw [kept_length hwf]; omega)]
      unfold ParseSim.kept
      rw [List.getElem?_take]
      rw [if_pos hilt]
      exact hget

theorem grantedContent_eq_none_iff (raws : List ClientState) (ff : Int) :
    (parse_client_states raws ff).grantedContent = none ↔
      ∀ e ∈ raws, e.is_granted = false := by
  constructor
  · intro h e he
    by_contra hg
    have hg1 : e.is_granted = true := by
      cases hge : e.is_granted
      · exact absurd hge hg
      · rfl
    have hsome := parse_fold_gidx_mem ff raws initSim e he hg1
    obtain ⟨i, hi⟩ := Option.isSome_iff_exists.mp hsome
    have hOK := parse_fold_gidxOK ff raws initSim simWF_initSim
      (by intro j hj; simp [initSim] at hj)
    have hlt := hOK i hi
    unfold parse_client_states ParseSim.grantedContent at h
    rw [hi, Option.some_bind, List.getElem?_eq_getElem hlt] at h
    cases h
  · intro h
    have := parse_fold_gidx_of_no_granted ff raws initSim h
    unfold parse_client_states ParseSim.grantedContent
    rw [this]
    rfl

theorem grantedContent_unique (l1 l2 : List ClientState) (w : ClientState) (ff : Int)
    (hw : w.is_granted = true) (hfresh : ff ≤ w.time)
    (h2 : ∀ e ∈ l2, e.is_granted = false) :
    (parse_client_states (l1 ++ w :: l2) ff).grantedContent = some w := by
  unfold parse_client_states
  rw [List.foldl_append, List.foldl_cons]
  have hwf1 : SimWF (l1.foldl (parseStep ff) initSim) := parse_fold_wf ff l1 initSim simWF_initSim
  set sim1 := l1.foldl (parseStep ff) initSim with hsim1
  have hstep_wf : SimWF (parseStep ff sim1 w) := parseStep_wf ff w hwf1
  have hGA : GrantedAt (parseStep ff sim1 w) w := by
    refine ⟨sim1.nKept, ?_, ?_, ?_⟩
    · simp [parseStep, hw]
    · simp only [parseStep]
      rw [if_pos hfresh]
      omega
    · rw [parseStep_slots ff w hwf1]
      have := kept_length hwf1
      rw [← this, List.getElem?_concat_length]
  have hGA2 := parse_fold_grantedAt ff l2 _ w hstep_wf hGA h2
  obtain ⟨i, hidx, hilt, hget⟩ := hGA2
  rw [ParseSim.grantedContent, hidx]
  simpa using hget

/-! Facts about the entry-matching scan shared by request_lock and remove_lock. -/

theorem findClient_eq_none {host pid : String} {l : List ClientState} :
    findClient host pid l = none ↔ ∀ c ∈ l, ¬(c.pid = pid ∧ c.host = host) := by
  induction l with
  | nil => simp [findClient]
  | cons c rest ih =>
    by_cases hc : c.pid == pid && c.host == host
    · simp only [findClient, if_pos hc]
      simp only [Bool.and_eq_true, beq_iff_eq] at hc
      simp [hc]
    · simp only [findClient, if_neg hc, Option.map_eq_none']
      simp only [Bool.and_eq_true, beq_iff_eq] at hc
      rw [ih]
      constructor
      · intro h x hx
        rcases List.mem_cons.mp hx with rfl | hmem
        · intro hmatch
          exact hc ⟨hmatch.1, hmatch.2⟩
        · exact h x hmem
      · intro h x hx
        exact h x (List.mem_cons_of_mem _ hx)

theorem findClient_eq_some {host pid : String} {l pre post : List ClientState}
    {e : ClientState} (h : findClient host pid l = some (pre, e, post)) :
    l = pre ++ e :: post ∧ e.pid = pid ∧ e.host = host ∧
      ∀ c ∈ pre, ¬(c.pid = pid ∧ c.host = host) := by
  induction l generalizing pre with
  | nil => cases h
  | cons c rest ih =>
    by_cases hc : c.pid == pid && c.host == host
    · rw [findClient, if_pos hc] at h
      injection h with h
      injection h with h1 h
      injection h with h2 h3
      subst h1; subst h2; subst h3
      simp only [Bool.and_eq_true, beq_iff_eq] at hc
      exact ⟨rfl, hc.1, hc.2, by intro x hx; cases hx⟩
    · rw [findClient, if_neg hc] at h
      rcases Option.map_eq_some'.mp h with ⟨⟨p1, e1, q1⟩, hfind, heq⟩
      injection heq with heq1 heq
      injection heq with heq2 heq3
      subst heq2; subst heq3
      obtain ⟨hl, hp, hh, hpre⟩ := @ih p1 hfind
      subst heq1
      simp only [Bool.and_eq_true, beq_iff_eq] at hc
      refine ⟨by rw [hl]; rfl, hp, hh, ?_⟩
      intro x hx
      rcases List.mem_cons.mp hx with rfl | hmem
      · intro hmatch
        exact hc ⟨hmatch.1, hmatch.2⟩
      · exact hpre x hmem

theorem findClient_of_mem {host pid : String} {l : List ClientState} {e : ClientState}
    (hPW : l.Pairwise keyNe) (he : e ∈ l) (hp : e.pid = pid) (hh : e.host = host) :
    ∃ pre post, findClient host pid l = some (pre, e, post) ∧ l = pre ++ e :: post := by
  induction l with
  | nil => cases he
  | cons c rest ih =>
    rcases List.pairwise_cons.mp hPW with ⟨hcrest, hPW2⟩
    rcases List.mem_cons.mp he with rfl | hmem
    · refine ⟨[], rest, ?_, rfl⟩
      rw [findClient, if_pos (by simp [hp, hh])]
    · by_cases hc : c.pid == pid && c.host == host
      · exfalso
        simp only [Bool.and_eq_true, beq_iff_eq] at hc
        apply hcrest e hmem
        rw [hc.1, hc.2, hp, hh]
      · obtain ⟨pre, post, hfind, hsplit⟩ := ih hPW2 hmem
        refine ⟨c :: pre, post, ?_, by rw [hsplit]; rfl⟩
        rw [findClient, if_neg hc, hfind]
        rfl

/-! Facts about the state-file invariant. -/

theorem stateInv_sublist {l1 l2 : List ClientState} (h : l1.Sublist l2)
    (hInv : StateInv l2) : StateInv l1 := by
  obtain ⟨h1, h2, h3⟩ := hInv
  refine ⟨List.Pairwise.sublist h h1, ?_, ?_⟩
  · intro a ha hag haw b hb hbg
    exact h2 a (h.mem ha) hag haw b (h.mem hb) hbg
  · intro a ha b hb hag hbg
    exact h3 a (h.mem ha) b (h.mem hb) hag hbg

theorem pairwise_key_middle {pre post : List ClientState} {e x : ClientState}
    (h : (pre ++ e :: post).Pairwise keyNe)
    (hh : x.host = e.host) (hp : x.pid = e.pid) :
    (pre ++ x :: post).Pairwise keyNe := by
  rw [List.pairwise_append] at h ⊢
  obtain ⟨hpre, hcons, hcross⟩ := h
  rw [List.pairwise_cons] at hcons ⊢
  refine ⟨hpre, ⟨?_, hcons.2⟩, ?_⟩
  · intro b hb
    have := hcons.1 b hb
    unfold keyNe at this ⊢
    rw [hh, hp]
    exact this
  · intro a ha b hb
    rcases List.mem_cons.mp hb with rfl | hmem
    · have := hcross a ha e (List.mem_cons_self _ _)
      unfold keyNe at this ⊢
      rw [hh, hp]
      exact this
    · exact hcross a ha b (List.mem_cons_of_mem _ hmem)

/-! Characterizations of the parse results and the request engine. -/

theorem parse_kept_eq (raws : List ClientState) (ff : Int) :
    (parse_client_states raws ff).kept = raws.filter (fun x => decide (ff ≤ x.time)) := by
  simpa [parse_client_states, initSim, ParseSim.kept] using
    parse_fold_kept ff raws initSim simWF_initSim

theorem parse_changed_eq (raws : List ClientState) (ff : Int) :
    (parse_client_states raws ff).changed = raws.any (fun e => decide (e.time < ff)) := by
  simpa [parse_client_states, initSim] using
    parse_fold_changed ff raws initSim

theorem keyFact_write (raws : List ClientState) (ff : Int)
    (hg : grantNow true ((parse_client_states raws ff).grantedContent) = true) :
    ∀ e ∈ raws, e.is_granted = false := by
  cases hgc : (parse_client_states raws ff).grantedContent with
  | none => exact (grantedContent_eq_none_iff raws ff).mp hgc
  | some g =>
    rw [hgc] at hg
    simp [grantNow] at hg

theorem keyFact_read (raws : List ClientState) (ff : Int)
    (hInv : StateInv raws)
    (hg : grantNow false ((parse_client_states raws ff).grantedContent) = true) :
    ∀ e ∈ (parse_client_states raws ff).kept, e.is_granted = true →
      e.is_write_lock = false := by
  intro e he heg
  by_contra hw
  have hw1 : e.is_write_lock = true := by
    cases h : e.is_write_lock
    · exact absurd h hw
    · rfl
  rw [parse_kept_eq] at he
  have hmem := List.mem_of_mem_filter he
  have hfresh : ff ≤ e.time := by simpa using List.of_mem_filter he
  have huniq := hInv.2.1 e hmem heg hw1
  obtain ⟨l1, l2, hsplit⟩ := List.append_of_mem hmem
  have h2 : ∀ x ∈ l2, x.is_granted = false := by
    intro x hx
    cases hxg : x.is_granted
    · rfl
    · exfalso
      have hxe : x = e := huniq x (by rw [hsplit]; simp [hx]) hxg
      have hPW := hInv.1
      rw [hsplit, List.pairwise_append] at hPW
      have hcons := List.pairwise_cons.mp hPW.2.1
      have hne := hcons.1 x hx
      rw [hxe] at hne
      exact hne rfl
  have hgc := grantedContent_unique l1 l2 e ff heg hfresh h2
  rw [hsplit, hgc] at hg
  simp [grantNow, hw1] at hg

theorem request_lock_core_none {kept : List ClientState} {gc : Option ClientState}
    {ch wl : Bool} {host pid : String} {now : Int} {raws : List ClientState}
    (hfind : findClient host pid kept = none) :
    request_lock_core kept gc ch wl host pid now raws =
      { result := .done (grantNow wl gc),
        persisted := kept ++ [{ host := host, pid := pid, is_write_lock := wl,
                                is_granted := grantNow wl gc, time := now }],
        wrote := true } := by
  unfold request_lock_core
  rw [hfind]

theorem request_lock_core_found_bad {kept : List ClientState} {gc : Option ClientState}
    {ch wl : Bool} {host pid : String} {now : Int} {raws pre post : List ClientState}
    {e : ClientState}
    (hfind : findClient host pid kept = some (pre, e, post))
    (hbad : (e.is_granted || (e.is_write_lock != wl)) = true) :
    request_lock_core kept gc ch wl host pid now raws =
      { result := .notSup, persisted := raws, wrote := false } := by
  unfold request_lock_core
  rw [hfind]
  simp only [hbad, if_true]

theorem request_lock_core_found_ok {kept : List ClientState} {gc : Option ClientState}
    {ch wl : Bool} {host pid : String} {now : Int} {raws pre post : List ClientState}
    {e : ClientState}
    (hfind : findClient host pid kept = some (pre, e, post))
    (hok : (e.is_granted || (e.is_write_lock != wl)) = false) :
    request_lock_core kept gc ch wl host pid now raws =
      if (ch || grantNow wl gc || (e.time != now)) = true then
        { result := .done (grantNow wl gc),
          persisted := pre ++ { host := e.host, pid := e.pid,
                                is_write_lock := e.is_write_lock,
                                is_granted := (grantNow wl gc || e.is_granted),
                                time := now } :: post,
          wrote := true }
      else
        { result := .done (grantNow wl gc), persisted := raws, wrote := false } := by
  unfold request_lock_core
  rw [hfind]
  simp only [hok, Bool.false_eq_true, if_false]
  set g := grantNow wl gc with hgdef
  have he1 : (if g then { e with is_granted := true } else e) =
      { host := e.host, pid := e.pid, is_write_lock := e.is_write_lock,
        is_granted := (g || e.is_granted), time := e.time } := by
    cases g <;> simp
  rw [he1]
  by_cases ht : e.time = now
  · have htb : (e.time != now) = false := by simp [ht]
    simp only [htb, Bool.or_false]
    by_cases hcg : (ch || g) = true
    · simp only [hcg, if_true]
      simp [ht]
    · have hcg2 : (ch || g) = false := by
        cases h : (ch || g)
        · rfl
        · exact absurd h hcg
      simp only [hcg2, Bool.false_eq_true, if_false]
  · have htb : (e.time != now) = true := by simp [ht]
    simp only [htb, Bool.or_true, if_true]

theorem remove_lock_core_none {kept : List ClientState} {host pid : String}
    {raws : List ClientState}
    (hfind : findClient host pid kept = none) :
    remove_lock_core kept host pid raws =
      { result := .notSup, persisted := raws, wrote := false } := by
  unfold remove_lock_core
  rw [hfind]

theorem remove_lock_core_found {kept : List ClientState} {host pid : String}
    {raws pre post : List ClientState} {e : ClientState}
    (hfind : findClient host pid kept = some (pre, e, post)) :
    remove_lock_core kept host pid raws =
      if e.is_granted then
        { result := .ok, persisted := pre ++ post ++ [post.getLastD e], wrote := true }
      else
        { result := .assertFailed, persisted := raws, wrote := false } := by
  unfold remove_lock_core
  rw [hfind]

/-! Preservation of the state-file invariant by the engine steps. -/

theorem stateInv23_mid (kept pre post : List ClientState) (x : ClientState) (g wl : Bool)
    (hpre : ∀ c ∈ pre, c ∈ kept) (hpost : ∀ c ∈ post, c ∈ kept)
    (hxg : x.is_granted = g) (hxw : x.is_write_lock = wl)
    (hK1 : g = true → wl = true → ∀ e ∈ kept, e.is_granted = false)
    (hK2 : g = true → wl = false → ∀ e ∈ kept, e.is_granted = true → e.is_write_lock = false)
    (hI2 : ∀ a ∈ kept, a.is_granted = true → a.is_write_lock = true →
      ∀ b ∈ kept, b.is_granted = true → b = a)
    (hI3 : ∀ a ∈ kept, ∀ b ∈ kept, a.is_granted = true → b.is_granted = true →
      a.is_write_lock = b.is_write_lock) :
    (∀ a ∈ pre ++ x :: post, a.is_granted = true → a.is_write_lock = true →
      ∀ b ∈ pre ++ x :: post, b.is_granted = true → b = a) ∧
    (∀ a ∈ pre ++ x :: post, ∀ b ∈ pre ++ x :: post, a.is_granted = true →
      b.is_granted = true → a.is_write_lock = b.is_write_lock) := by
  have hmem : ∀ c ∈ pre ++ x :: post, c = x ∨ c ∈ kept := by
    intro c hc
    rcases List.mem_append.mp hc with h | h
    · exact Or.inr (hpre c h)
    · rcases List.mem_cons.mp h with rfl | h
      · exact Or.inl rfl
      · exact Or.inr (hpost c h)
  constructor
  · intro a ha hag haw b hb hbg
    rcases hmem a ha with rfl | haK
    · have hgt : g = true := by rw [← hxg]; exact hag
      have hwt : wl = true := by rw [← hxw]; exact haw
      rcases hmem b hb with rfl | hbK
      · rfl
      · have := hK1 hgt hwt b hbK
        rw [hbg] at this
        cases this
    · rcases hmem b hb with rfl | hbK
      · exfalso
        have hgt : g = true := by rw [← hxg]; exact hbg
        cases hwl : wl
        · have := hK2 hgt hwl a haK hag
          rw [haw] at this
          cases this
        · have := hK1 hgt hwl a haK
          rw [hag] at this
          cases this
      · exact hI2 a haK hag haw b hbK hbg
  · intro a ha b hb hag hbg
    rcases hmem a ha with rfl | haK
    · rcases hmem b hb with rfl | hbK
      · rfl
      · have hgt : g = true := by rw [← hxg]; exact hag
        cases hwl : wl
        · have := hK2 hgt hwl b hbK hbg
          rw [hxw, hwl, this]
        · have := hK1 hgt hwl b hbK
          rw [hbg] at this
          cases this
    · rcases hmem b hb with rfl | hbK
      · have hgt : g = true := by rw [← hxg]; exact hbg
        cases hwl : wl
        · have := hK2 hgt hwl a haK hag
          rw [hxw, hwl, this]
        · have := hK1 hgt hwl a haK
          rw [hag] at this
          cases this
      · exact hI3 a haK b hbK hag hbg

theorem stateInv_lock_step (raws : List ClientState) (wl : Bool) (host pid : String)
    (now timeout_sec : Int) (hInv : StateInv raws) :
    StateInv (narwhal_lock_step raws wl host pid now timeout_sec).persisted := by
  set ff := now - timeout_sec with hff
  set sim := parse_client_states raws ff with hsim
  have hsub : sim.kept.Sublist raws := by
    rw [hsim, parse_kept_eq]
    exact List.filter_sublist raws
  have hInvK : StateInv sim.kept := stateInv_sublist hsub hInv
  set g := grantNow wl sim.grantedContent with hgdef
  have hK1 : g = true → wl = true → ∀ e ∈ sim.kept, e.is_granted = false := by
    intro hg hwl e he
    rw [hwl] at hgdef
    exact keyFact_write raws ff (by rw [← hgdef]; exact hg) e (hsub.subset he)
  have hK2 : g = true → wl = false → ∀ e ∈ sim.kept, e.is_granted = true →
      e.is_write_lock = false := by
    intro hg hwl e he heg
    rw [hwl] at hgdef
    exact keyFact_read raws ff hInv (by rw [← hgdef]; exact hg) e he heg
  show StateInv (request_lock_core sim.kept sim.grantedContent sim.changed wl host pid now
    raws).persisted
  cases hfind : findClient host pid sim.kept with
  | none =>
    rw [request_lock_core_none hfind]
    have hnomatch := findClient_eq_none.mp hfind
    refine ⟨?_, ?_⟩
    · rw [List.pairwise_append]
      refine ⟨hInvK.1, List.pairwise_singleton _ _, ?_⟩
      intro a ha b hb
      rw [List.mem_singleton] at hb
      subst hb
      intro hEq
      have h1 : a.host = host := congrArg Prod.fst hEq
      have h2 : a.pid = pid := congrArg Prod.snd hEq
      exact hnomatch a ha ⟨h2, h1⟩
    · exact stateInv23_mid sim.kept sim.kept [] _ g wl (fun c h => h) (fun c h => by cases h)
        rfl rfl hK1 hK2 hInvK.2.1 hInvK.2.2
  | some x =>
    obtain ⟨pre, e, post⟩ := x
    by_cases hbad : (e.is_granted || (e.is_write_lock != wl)) = true
    · rw [request_lock_core_found_bad hfind hbad]
      exact hInv
    · have hok : (e.is_granted || (e.is_write_lock != wl)) = false := by
        cases h : (e.is_granted || (e.is_write_lock != wl))
        · rfl
        · exact absurd h hbad
      rw [request_lock_core_found_ok hfind hok]
      obtain ⟨hsplit, hep, heh, -⟩ := findClient_eq_some hfind
      have hpend : e.is_granted = false := by
        cases h : e.is_granted
        · rfl
        · rw [h] at hok
          simp at hok
      have hmode : e.is_write_lock = wl := by
        rw [hpend] at hok
        simp only [Bool.false_or, bne_eq_false_iff_eq] at hok
        exact hok
      by_cases hch : (sim.changed || g || (e.time != now)) = true
      · rw [if_pos hch]
        have hpreK : ∀ c ∈ pre, c ∈ sim.kept := by
          intro c hc
          rw [hsplit]
          simp [hc]
        have hpostK : ∀ c ∈ post, c ∈ sim.kept := by
          intro c hc
          rw [hsplit]
          simp [hc]
        refine ⟨?_, ?_⟩
        · have hPWk : (pre ++ e :: post).Pairwise keyNe := by
            rw [← hsplit]
            exact hInvK.1
          exact pairwise_key_middle hPWk rfl rfl
        · refine stateInv23_mid sim.kept pre post _ (g || e.is_granted) e.is_write_lock
            hpreK hpostK rfl rfl ?_ ?_ hInvK.2.1 hInvK.2.2
          · intro hg hwl
            rw [hpend, Bool.or_false] at hg
            rw [hmode] at hwl
            exact hK1 hg hwl
          · intro hg hwl
            rw [hpend, Bool.or_false] at hg
            rw [hmode] at hwl
            exact hK2 hg hwl
      · rw [if_neg hch]
        exact hInv

/-- C3 (refuting evaluation): the acquire path does preserve the invariants
(`stateInv_lock_step`), but release does not.  From the invariant-satisfying
state of two granted readers, a successful release by the first persists the
second reader's entry twice: `remove_lock` shifts the following entries down
with `memmove` but never decrements `n_client_states`, so `dump_client_states`
writes the old count.  The persisted state after the successful operation
violates the pairwise `(host, pid)`-uniqueness invariant the claim asserts. -/
theorem c3_release_breaks_invariants :
    StateInv [(⟨"h", "1", false, true, 100⟩ : ClientState),
              (⟨"h", "2", false, true, 100⟩ : ClientState)] ∧
    (narwhal_unlock_step
        [(⟨"h", "1", false, true, 100⟩ : ClientState),
         (⟨"h", "2", false, true, 100⟩ : ClientState)]
        "h" "1" 100 10).result = RemResult.ok ∧
    (narwhal_unlock_step
        [(⟨"h", "1", false, true, 100⟩ : ClientState),
         (⟨"h", "2", false, true, 100⟩ : ClientState)]
        "h" "1" 100 10).persisted =
      [(⟨"h", "2", false, true, 100⟩ : ClientState),
       (⟨"h", "2", false, true, 100⟩ : ClientState)] ∧
    ¬StateInv (narwhal_unlock_step
        [(⟨"h", "1", false, true, 100⟩ : ClientState),
         (⟨"h", "2", false, true, 100⟩ : ClientState)]
        "h" "1" 100 10).persisted := by
  refine ⟨?_, by decide, by decide, ?_⟩
  · unfold StateInv keyNe
    exact ⟨by decide, by decide, by decide⟩
  · unfold StateInv keyNe
    decide

/-- C4: for every load, parsing keeps exactly the entries with
`time ≥ now - timeout_sec`, every entry with a smaller time is dropped and marks
the state dirty (`client_states_changed`, which forces the rewrite), and no stale
entry remains among the kept entries.  Instantiating `timeout_sec := 0` gives the
boundary case in which every entry with `time < now` is dropped. -/
theorem c4_reap_exact (raws : List ClientState) (now timeout_sec : Int) :
    (parse_client_states raws (now - timeout_sec)).kept =
      raws.filter (fun e => decide (now - timeout_sec ≤ e.time)) ∧
    (parse_client_states raws (now - timeout_sec)).changed =
      raws.any (fun e => decide (e.time < now - timeout_sec)) ∧
    ∀ e ∈ (parse_client_states raws (now - timeout_sec)).kept,
      now - timeout_sec ≤ e.time := by
  refine ⟨parse_kept_eq raws _, parse_changed_eq raws _, ?_⟩
  intro e he
  rw [parse_kept_eq] at he
  simpa using List.of_mem_filter he

/-- C5: when the loaded state contains an entry of the calling process that is
already granted or whose mode differs from the requested one, the acquire call
fails with `ENOTSUP` and performs no write, so the state file is byte-for-byte
unchanged (the hypothesis of pairwise distinct keys is the state-file invariant,
under which "contains a matching entry" determines the entry the scan finds). -/
theorem c5_double_acquire_rejected (raws : List ClientState) (wl : Bool) (host pid : String)
    (now timeout_sec : Int) (e : ClientState)
    (hPW : raws.Pairwise keyNe)
    (he : e ∈ (parse_client_states raws (now - timeout_sec)).kept)
    (hp : e.pid = pid) (hh : e.host = host)
    (hbad : e.is_granted = true ∨ e.is_write_lock ≠ wl) :
    (narwhal_lock_step raws wl host pid now timeout_sec).result = ReqResult.notSup ∧
    (narwhal_lock_step raws wl host pid now timeout_sec).persisted = raws ∧
    (narwhal_lock_step raws wl host pid now timeout_sec).wrote = false := by
  have hPWk : (parse_client_states raws (now - timeout_sec)).kept.Pairwise keyNe := by
    rw [parse_kept_eq]
    exact List.Pairwise.sublist (List.filter_sublist raws) hPW
  obtain ⟨pre, post, hfind, -⟩ := findClient_of_mem hPWk he hp hh
  have hbadB : (e.is_granted || (e.is_write_lock != wl)) = true := by
    rcases hbad with h | h
    · simp [h]
    · simp [h]
  unfold narwhal_lock_step
  rw [request_lock_core_found_bad hfind hbadB]
  exact ⟨rfl, rfl, rfl⟩

theorem c5_witness :
    ((⟨"h", "1", false, true, 100⟩ : ClientState) ∈
        (parse_client_states [(⟨"h", "1", false, true, 100⟩ : ClientState)] (100 - 10)).kept) ∧
    (narwhal_lock_step [(⟨"h", "1", false, true, 100⟩ : ClientState)]
        true "h" "1" 100 10).result = ReqResult.notSup ∧
    (narwhal_lock_step [(⟨"h", "1", false, true, 100⟩ : ClientState)]
        true "h" "1" 100 10).persisted = [(⟨"h", "1", false, true, 100⟩ : ClientState)] ∧
    (narwhal_lock_step [(⟨"h", "1", false, true, 100⟩ : ClientState)]
        true "h" "1" 100 10).wrote = false := by
  have h := c5_double_acquire_rejected [(⟨"h", "1", false, true, 100⟩ : ClientState)]
    true "h" "1" 100 10 (⟨"h", "1", false, true, 100⟩ : ClientState)
    (by unfold keyNe; decide) (by decide) rfl rfl (Or.inl rfl)
  exact ⟨by decide, h.1, h.2.1, h.2.2⟩

/-- C9: when the loaded state contains an entry of the calling process that is
pending with the requested mode, the engine flips it to granted exactly when
`grant_now` holds, refreshes its time to `now` exactly when it differs, marks
the state dirty in either case, rewrites the state file iff the state is dirty
after the mutation (including dirtiness from reaping), and returns `grant_now`. -/
theorem c9_pending_update (raws : List ClientState) (wl : Bool) (host pid : String)
    (now timeout_sec : Int) (e : ClientState) (sim : ParseSim) (g : Bool)
    (hsim : sim = parse_client_states raws (now - timeout_sec))
    (hg : g = grantNow wl sim.grantedContent)
    (hPW : raws.Pairwise keyNe)
    (he : e ∈ sim.kept) (hp : e.pid = pid) (hh : e.host = host)
    (hpend : e.is_granted = false) (hmode : e.is_write_lock = wl) :
    ∃ pre post, sim.kept = pre ++ e :: post ∧
      (narwhal_lock_step raws wl host pid now timeout_sec).result = ReqResult.done g ∧
      (narwhal_lock_step raws wl host pid now timeout_sec).wrote
        = (sim.changed || g || (e.time != now)) ∧
      (narwhal_lock_step raws wl host pid now timeout_sec).persisted
        = (if (sim.changed || g || (e.time != now)) = true
            then pre ++ { e with is_granted := (g || e.is_granted), time := now } :: post
            else raws) := by
  subst hsim
  subst hg
  have hPWk : (parse_client_states raws (now - timeout_sec)).kept.Pairwise keyNe := by
    rw [parse_kept_eq]
    exact List.Pairwise.sublist (List.filter_sublist raws) hPW
  obtain ⟨pre, post, hfind, hsplit⟩ := findClient_of_mem hPWk he hp hh
  have hok : (e.is_granted || (e.is_write_lock != wl)) = false := by
    simp [hpend, hmode]
  have hout := @request_lock_core_found_ok _
    ((parse_client_states raws (now - timeout_sec)).grantedContent)
    ((parse_client_states raws (now - timeout_sec)).changed)
    wl host pid now raws pre post e hfind hok
  refine ⟨pre, post, hsplit, ?_, ?_, ?_⟩ <;>
    · unfold narwhal_lock_step
      rw [hout]
      by_cases hc : ((parse_client_states raws (now - timeout_sec)).changed
          || grantNow wl (parse_client_states raws (now - timeout_sec)).grantedContent
          || (e.time != now)) = true
      · simp [hc]
      · have hc2 := Bool.not_eq_true _ |>.mp hc
        simp [hc2]

theorem c9_pending_update_witness :
    ((⟨"h", "1", true, false, 50⟩ : ClientState) ∈
        (parse_client_states [(⟨"h", "1", true, false, 50⟩ : ClientState)] (55 - 10)).kept) ∧
    ∃ pre post,
      (parse_client_states [(⟨"h", "1", true, false, 50⟩ : ClientState)] (55 - 10)).kept
        = pre ++ (⟨"h", "1", true, false, 50⟩ : ClientState) :: post ∧
      (narwhal_lock_step [(⟨"h", "1", true, false, 50⟩ : ClientState)]
          true "h" "1" 55 10).result = ReqResult.done
            (grantNow true (parse_client_states [(⟨"h", "1", true, false, 50⟩ : ClientState)]
              (55 - 10)).grantedContent) ∧
      (narwhal_lock_step [(⟨"h", "1", true, false, 50⟩ : ClientState)]
          true "h" "1" 55 10).wrote
        = ((parse_client_states [(⟨"h", "1", true, false, 50⟩ : ClientState)]
              (55 - 10)).changed
            || grantNow true (parse_client_states [(⟨"h", "1", true, false, 50⟩ : ClientState)]
              (55 - 10)).grantedContent
            || ((50 : Int) != 55)) ∧
      (narwhal_lock_step [(⟨"h", "1", true, false, 50⟩ : ClientState)]
          true "h" "1" 55 10).persisted
        = (if ((parse_client_states [(⟨"h", "1", true, false, 50⟩ : ClientState)]
                (55 - 10)).changed
              || grantNow true (parse_client_states [(⟨"h", "1", true, false, 50⟩ : ClientState)]
                (55 - 10)).grantedContent
              || ((50 : Int) != 55)) = true
            then pre ++ { (⟨"h", "1", true, false, 50⟩ : ClientState) with
                          is_granted := (grantNow true
                            (parse_client_states [(⟨"h", "1", true, false, 50⟩ : ClientState)]
                              (55 - 10)).grantedContent
                            || false), time := (55 : Int) } :: post
            else [(⟨"h", "1", true, false, 50⟩ : ClientState)]) :=
  ⟨by decide, c9_pending_update [(⟨"h", "1", true, false, 50⟩ : ClientState)]
    true "h" "1" 55 10 (⟨"h", "1", true, false, 50⟩ : ClientState) _ _ rfl rfl
    (by unfold keyNe; decide) (by decide) rfl rfl rfl rfl⟩

/-- C6 (refuting evaluation): the no-match half of the claim holds (`ENOTSUP`),
but the removal half does not.  `remove_lock` shifts the entries after the match
down with `memmove` yet never decrements `n_client_states`, so the dump writes
the old count: with two granted readers, releasing the first persists the second
reader's entry twice instead of `pre ++ post`; and when the caller's entry is
the last one, the successful release writes the file back with the caller's
entry still in it, removing nothing. -/
theorem c6_release_keeps_old_count :
    narwhal_unlock_step
        [(⟨"h", "1", false, true, 100⟩ : ClientState),
         (⟨"h", "2", false, true, 100⟩ : ClientState)]
        "h" "1" 100 10 =
      { result := RemResult.ok,
        persisted := [(⟨"h", "2", false, true, 100⟩ : ClientState),
                      (⟨"h", "2", false, true, 100⟩ : ClientState)],
        wrote := true } ∧
    narwhal_unlock_step [(⟨"h", "1", false, true, 100⟩ : ClientState)] "h" "1" 100 10 =
      { result := RemResult.ok,
        persisted := [(⟨"h", "1", false, true, 100⟩ : ClientState)],
        wrote := true } ∧
    (narwhal_unlock_step [(⟨"h", "1", false, true, 100⟩ : ClientState)]
        "h" "2" 100 10).result = RemResult.notSup := by
  refine ⟨by decide, by decide, by decide⟩

/-- C1 (refuting evaluation): with reader A granted (`R G`) and writer B pending
(`W P`), a fresh read request by C is granted immediately and persisted as `R G`
on that very call, because `request_lock` consults only `granted_state` and never
checks for pending writers.  The claim (and the header documentation, which says
a read is granted only "if there are no write locks (granted or pending)") says
C's entry should be appended as `R P`. -/
theorem c1_read_granted_despite_pending_writer :
    narwhal_lock_step
        [(⟨"host1", "100", false, true, 100⟩ : ClientState),
         (⟨"host1", "200", true, false, 100⟩ : ClientState)]
        false "host1" "300" 100 10 =
      { result := ReqResult.done true,
        persisted := [(⟨"host1", "100", false, true, 100⟩ : ClientState),
                      (⟨"host1", "200", true, false, 100⟩ : ClientState),
                      (⟨"host1", "300", false, true, 100⟩ : ClientState)],
        wrote := true } := by
  decide

/-- C2 (refuting evaluation): when the only granted entry in the file is stale,
it is dropped on load, but `granted_state` was already recorded before the
staleness check and still points at the slot holding the dropped `R G` entry, so
an acquire-write on the very next load computes `grant_now = false` and persists
itself as `W P` instead of being granted immediately as the claim (and the
stale-reaping scenario of the specification) requires. -/
theorem c2_stale_granted_entry_still_blocks :
    narwhal_lock_step [(⟨"h", "1", false, true, 0⟩ : ClientState)] true "h" "2" 100 10 =
      { result := ReqResult.done false,
        persisted := [(⟨"h", "2", true, false, 100⟩ : ClientState)],
        wrote := true } := by
  decide

/-- C10 (refuting trace): a single process from an empty lockdir acquires a read
lock at time 0, then calls acquire-write at time 100 (past the 10-second
timeout).  Its own stale `R G` entry is dropped but still blocks the grant
through the dangling `granted_state`, so the call persists a pending `W P` entry
and spins; if the next mutex acquisition times out, the acquire returns with the
`W P` entry persisted.  The subsequent release then finds the caller's entry
pending, and the `assert(client_state->is_granted)` in `remove_lock` fails. -/
theorem c10_release_assert_can_fail :
    (narwhal_lock_step [] false "h" "1" 0 10).result = ReqResult.done true ∧
    (narwhal_lock_step (narwhal_lock_step [] false "h" "1" 0 10).persisted
        true "h" "1" 100 10).result = ReqResult.done false ∧
    (narwhal_unlock_step
        (narwhal_lock_step (narwhal_lock_step [] false "h" "1" 0 10).persisted
          true "h" "1" 100 10).persisted
        "h" "1" 100 10).result = RemResult.assertFailed := by
  refine ⟨by decide, by decide, by decide⟩

/-- C7 counterexample: with no error pending on entry and both unlinks failing
(lockfile unlink with errno 13, private unlink with errno 2), the call returns
failure but the final `errno` is 2, the second failure, not the first failure 13
as the claim states. -/
theorem c7_counterexample :
    (exclusive_unlock 0 (some 13) (some 2)).1 = -1 ∧
    (exclusive_unlock 0 (some 13) (some 2)).2.1 = 2 ∧
    ¬(exclusive_unlock 0 (some 13) (some 2)).2.1 = 13 := by
  refine ⟨by decide, by decide, by decide⟩

/-- C7 amended: the lockfile is unlinked first and the private file second, and
both unlinks are attempted unconditionally; the call reports failure iff either
unlink fails; when no error code was pending on entry, the reported `errno` is
the failure of the private-file unlink when it fails (so the second failure wins
when both fail), and otherwise the lockfile unlink's failure; an error code
already present on entry is restored, whether or not the unlinks succeed. -/
theorem c7_unlock_error_reporting (base : Nat) (r1 r2 : Option Nat) :
    (exclusive_unlock base r1 r2).2.2 = ["unlink lockfile", "unlink private"] ∧
    ((exclusive_unlock base r1 r2).1 = -1 ↔ (r1.isSome ∨ r2.isSome)) ∧
    (∀ e1, r1 = some e1 → r2 = none → base = 0 → (exclusive_unlock base r1 r2).2.1 = e1) ∧
    (∀ e2, r2 = some e2 → base = 0 → (exclusive_unlock base r1 r2).2.1 = e2) ∧
    (base ≠ 0 → (exclusive_unlock base r1 r2).2.1 = base) := by
  refine ⟨rfl, ?_, ?_, ?_, ?_⟩
  · cases r1 <;> cases r2 <;> simp [exclusive_unlock]
  · intro e1 h1 h2 hb
    subst h1
    subst h2
    subst hb
    simp [exclusive_unlock, unlinkErrno]
  · intro e2 h2 hb
    subst h2
    subst hb
    simp [exclusive_unlock, unlinkErrno]
  · intro hb
    simp [exclusive_unlock, hb]

theorem c7_unlock_error_reporting_witness :
    (exclusive_unlock 0 (some 13) none).2.1 = 13 ∧
    (exclusive_unlock 0 (some 13) (some 2)).2.1 = 2 ∧
    (exclusive_unlock 7 (some 13) (some 2)).2.1 = 7 ∧
    ((exclusive_unlock 0 (some 13) (some 2)).1 = -1 ↔
      ((some 13 : Option Nat).isSome ∨ (some 2 : Option Nat).isSome)) :=
  ⟨(c7_unlock_error_reporting 0 (some 13) none).2.2.1 13 rfl rfl rfl,
   (c7_unlock_error_reporting 0 (some 13) (some 2)).2.2.2.1 2 rfl rfl,
   (c7_unlock_error_reporting 7 (some 13) (some 2)).2.2.2.2 (by decide),
   (c7_unlock_error_reporting 0 (some 13) (some 2)).2.1⟩

/-! Facts about the state-file codec. -/

theorem foldr_eq_ofDigits (L : List Nat) :
    L.foldr (fun d a => 10 * a + d) 0 = Nat.ofDigits 10 L := by
  induction L with
  | nil => simp [Nat.ofDigits]
  | cons d L ih =>
    rw [List.foldr_cons, ih, Nat.ofDigits_cons]
    omega

theorem digitVal_digitChar {d : Nat} (h : d < 10) :
    digitVal (Nat.digitChar d) = d := by
  interval_cases d <;> decide

theorem foldr_digitChar (L : List Nat) (hL : ∀ d ∈ L, d < 10) :
    L.foldr (fun d a => 10 * a + digitVal (Nat.digitChar d)) 0 =
      L.foldr (fun d a => 10 * a + d) 0 := by
  induction L with
  | nil => rfl
  | cons d L ih =>
    rw [List.foldr_cons, List.foldr_cons,
      ih (fun x hx => hL x (List.mem_cons_of_mem _ hx)),
      digitVal_digitChar (hL d (List.mem_cons_self _ _))]

theorem parseNatTok_natChars (n : Nat) : parseNatTok (natChars n) = n := by
  unfold natChars
  by_cases h : n = 0
  · subst h
    decide
  · rw [if_neg h]
    unfold parseNatTok
    rw [List.foldl_reverse, List.foldr_map,
      foldr_digitChar _ (fun d hd => Nat.digits_lt_base (by norm_num) hd),
      foldr_eq_ofDigits, Nat.ofDigits_digits]

theorem natChars_mem {n : Nat} {c : Char} (hc : c ∈ natChars n) :
    isSep c = false ∧ ¬c = '-' := by
  unfold natChars at hc
  by_cases h : n = 0
  · rw [if_pos h] at hc
    rw [List.mem_singleton] at hc
    subst hc
    exact ⟨by decide, by decide⟩
  · rw [if_neg h, List.mem_reverse] at hc
    obtain ⟨d, hd, rfl⟩ := List.mem_map.mp hc
    have hlt : d < 10 := Nat.digits_lt_base (by norm_num) hd
    interval_cases d <;> exact ⟨by decide, by decide⟩

theorem natChars_ne_nil (n : Nat) : natChars n ≠ [] := by
  unfold natChars
  by_cases h : n = 0
  · rw [if_pos h]
    simp
  · rw [if_neg h]
    simp only [ne_eq, List.reverse_eq_nil_iff, List.map_eq_nil_iff]
    exact Nat.digits_ne_nil_iff_ne_zero.mpr h

theorem serializeTime_ne_nil (t : Int) : serializeTime t ≠ [] := by
  unfold serializeTime
  by_cases h : t < 0
  · rw [if_pos h]
    simp
  · rw [if_neg h]
    exact natChars_ne_nil _

theorem serializeTime_no_sep {t : Int} {c : Char} (hc : c ∈ serializeTime t) :
    isSep c = false := by
  unfold serializeTime at hc
  by_cases h : t < 0
  · rw [if_pos h] at hc
    rcases List.mem_cons.mp hc with rfl | hmem
    · decide
    · exact (natChars_mem hmem).1
  · rw [if_neg h] at hc
    exact (natChars_mem hc).1

theorem parseTime_serializeTime (t : Int) : parseTime (serializeTime t) = t := by
  unfold serializeTime
  by_cases h : t < 0
  · rw [if_pos h]
    simp only [parseTime]
    rw [if_pos trivial, parseNatTok_natChars]
    simp only [Int.ofNat_eq_coe]
    omega
  · rw [if_neg h]
    cases hN : natChars t.natAbs with
    | nil => exact absurd hN (natChars_ne_nil _)
    | cons c rest =>
      have hcmem : c ∈ natChars t.natAbs := by rw [hN]; exact List.mem_cons_self _ _
      simp only [parseTime]
      rw [if_neg (natChars_mem hcmem).2, ← hN, parseNatTok_natChars]
      simp only [Int.ofNat_eq_coe]
      omega

theorem tokenizeGo_cons (acc : List Char) (c : Char) (rest : List Char) :
    tokenizeGo acc (c :: rest) =
      if isSep c then
        if acc.isEmpty then [] else acc :: tokenizeGo [] rest
      else tokenizeGo (acc ++ [c]) rest := rfl

theorem tokenizeGo_append (tok : List Char) (acc : List Char) (s : Char)
    (rest : List Char) (hs : isSep s = true) (htok : ∀ c ∈ tok, isSep c = false)
    (hne : (acc ++ tok) ≠ []) :
    tokenizeGo acc (tok ++ s :: rest) = (acc ++ tok) :: tokenizeGo [] rest := by
  induction tok generalizing acc with
  | nil =>
    rw [List.append_nil] at hne ⊢
    rw [List.nil_append, tokenizeGo_cons, if_pos hs, if_neg (by simpa using hne)]
  | cons c tr ih =>
    have hstep : tokenizeGo acc ((c :: tr) ++ s :: rest) =
        tokenizeGo (acc ++ [c]) (tr ++ s :: rest) := by
      rw [List.cons_append, tokenizeGo_cons,
        if_neg (by rw [htok c (List.mem_cons_self _ _)]; simp)]
    rw [hstep, ih (acc ++ [c]) (fun x hx => htok x (List.mem_cons_of_mem _ hx))
      (by simp)]
    simp

theorem tokenize_token (tok rest : List Char) (s : Char) (hs : isSep s = true)
    (htok : ∀ c ∈ tok, isSep c = false) (hne : tok ≠ []) :
    tokenize (tok ++ s :: rest) = tok :: tokenize rest := by
  unfold tokenize
  have h := tokenizeGo_append tok [] s rest hs htok (by simpa using hne)
  rw [List.nil_append] at h
  exact h

theorem tokenize_singleton (m s : Char) (rest : List Char)
    (hm : isSep m = false) (hs : isSep s = true) :
    tokenize (m :: s :: rest) = [m] :: tokenize rest := by
  have h := tokenize_token [m] rest s hs
    (by intro x hx; rw [List.mem_singleton] at hx; subst hx; exact hm) (by simp)
  simpa using h

theorem dump_cons (c : ClientState) (l : List ClientState) :
    dump_client_states (c :: l) = serializeState c ++ dump_client_states l := by
  simp [dump_client_states]

theorem tokenize_dump (l : List ClientState)
    (hwf : ∀ c ∈ l, tokenOK c.host ∧ tokenOK c.pid) :
    parseFields (tokenize (dump_client_states l)) = some l := by
  induction l with
  | nil => rfl
  | cons c l ih =>
    obtain ⟨chost, cpid, cwl, cg, ctime⟩ := c
    obtain ⟨⟨hh1, hh2⟩, ⟨hp1, hp2⟩⟩ := hwf _ (List.mem_cons_self _ _)
    have hihwf : ∀ x ∈ l, tokenOK x.host ∧ tokenOK x.pid :=
      fun x hx => hwf x (List.mem_cons_of_mem _ hx)
    rw [dump_cons]
    have hshape : serializeState ⟨chost, cpid, cwl, cg, ctime⟩ ++ dump_client_states l =
        chost.data ++ spaceChar :: (cpid.data ++ spaceChar ::
          ((if cwl then 'W' else 'R') :: spaceChar ::
            ((if cg then 'G' else 'P') :: spaceChar ::
              (serializeTime ctime ++ nlChar :: dump_client_states l)))) := by
      simp [serializeState, List.append_assoc]
    rw [hshape]
    rw [tokenize_token chost.data _ spaceChar (by decide) hh2 hh1]
    rw [tokenize_token cpid.data _ spaceChar (by decide) hp2 hp1]
    rw [tokenize_singleton _ spaceChar _ (by cases cwl <;> decide) (by decide)]
    rw [tokenize_singleton _ spaceChar _ (by cases cg <;> decide) (by decide)]
    rw [tokenize_token (serializeTime ctime) _ nlChar (by decide)
      (fun x hx => serializeTime_no_sep hx) (serializeTime_ne_nil ctime)]
    have hmode : modeTok [if cwl then 'W' else 'R'] = some cwl := by
      cases cwl <;> rfl
    have hstatus : statusTok [if cg then 'G' else 'P'] = some cg := by
      cases cg <;> rfl
    simp only [parseFields, hmode, hstatus, ih hihwf, Option.bind_eq_bind,
      Option.some_bind, parseTime_serializeTime]
    rfl

/-- C8 counterexample: the serializer output for a single granted read entry
with time 0, parsed at `first_fresh_time = 90`, is reaped during parsing, so
serializing the parse result yields the empty file, not the original bytes:
`serialize(parse(s)) ≠ s` for this `s` produced by the serializer. -/
theorem c8_counterexample :
    roundTrip (dump_client_states [(⟨"h", "1", false, true, 0⟩ : ClientState)]) 90
      ≠ some (dump_client_states [(⟨"h", "1", false, true, 0⟩ : ClientState)]) := by
  decide

/-- C8 amended: for every byte string produced by the serializer from entries
whose host and pid are nonempty and free of separator characters (as every entry
the system writes is) and all of whose times are still fresh at parse time,
parsing and serializing the result reproduces the string byte for byte. -/
theorem c8_roundtrip (l : List ClientState) (ff : Int)
    (hwf : ∀ c ∈ l, tokenOK c.host ∧ tokenOK c.pid ∧ ff ≤ c.time) :
    roundTrip (dump_client_states l) ff = some (dump_client_states l) := by
  unfold roundTrip parseStateText
  rw [tokenize_dump l (fun c hc => ⟨(hwf c hc).1, (hwf c hc).2.1⟩)]
  simp only [Option.map_some']
  congr 1
  rw [parse_kept_eq, List.filter_eq_self.mpr]
  intro a ha
  simpa using (hwf a ha).2.2

theorem c8_roundtrip_witness :
    (∀ c ∈ [(⟨"h", "1", false, true, 100⟩ : ClientState)],
      tokenOK c.host ∧ tokenOK c.pid ∧ (90 : Int) ≤ c.time) ∧
    roundTrip (dump_client_states [(⟨"h", "1", false, true, 100⟩ : ClientState)]) 90
      = some (dump_client_states [(⟨"h", "1", false, true, 100⟩ : ClientState)]) := by
  have hwf : ∀ c ∈ [(⟨"h", "1", false, true, 100⟩ : ClientState)],
      tokenOK c.host ∧ tokenOK c.pid ∧ (90 : Int) ≤ c.time := by
    intro c hc
    rw [List.mem_singleton] at hc
    subst hc
    exact ⟨⟨by decide, by decide⟩, ⟨by decide, by decide⟩, by decide⟩
  exact ⟨hwf, c8_roundtrip _ 90 hwf⟩
